import Mathlib

/-!
# Verification of the ramwiz streaming LOD trace renderer

Shallow embedding of the rendering core in
`src/app/composables/useRenderer.ts` and of the timeline ruler in
`src/app/components/Trace/View/Timeline.vue`.

JavaScript `number` arithmetic on times, durations and screen fractions is
modelled exactly over `ℚ`; machine integers (offsets, counts, indices) are
modelled as `ℕ`/`ℤ` with the source's own overflow-free ranges.
-/

/-- One decoded trace event: a start time (a 32-bit float in the source,
modelled as its exact value in `ℚ`) and a command id byte. -/
structure Event where
  start : ℚ
  cmd : ℕ
deriving Repr, DecidableEq

/-- The view state of `useRenderer` (`viewState` reactive object):
the visible window `[start, start + duration)` plus zoom/pan bounds.
`scrollY` and the derived `viewRange` play no role in the clamped
pan/zoom arithmetic and are omitted. -/
structure ViewState where
  start : ℚ
  duration : ℚ
  minDuration : ℚ
  maxDuration : ℚ
  minTime : ℚ
  maxTime : ℚ
deriving Repr, DecidableEq

/-- `clampViewStart` from `useRenderer.ts` (lines 214-221):
`padding = duration * 0.1`, lower bound `minTime - padding`, upper bound
`max(lower, maxTime - duration + padding)`, result
`Math.max(lower, Math.min(s, upper))`. -/
def clampViewStart (vs : ViewState) (s : ℚ) : ℚ :=
  let padding := vs.duration * (1/10)
  let lower := vs.minTime - padding
  let upper := max lower (vs.maxTime - vs.duration + padding)
  max lower (min s upper)

/-- The lower clamp bound `minTime - padding` of `clampViewStart`. -/
def clampLower (vs : ViewState) : ℚ :=
  vs.minTime - vs.duration * (1/10)

/-- The upper clamp bound `max(lower, maxTime - duration + padding)` of
`clampViewStart`. -/
def clampUpper (vs : ViewState) : ℚ :=
  max (clampLower vs) (vs.maxTime - vs.duration + vs.duration * (1/10))

theorem clampViewStart_eq (vs : ViewState) (s : ℚ) :
    clampViewStart vs s = max (clampLower vs) (min s (clampUpper vs)) := rfl

/-- The duration update of `handleMouseWheel` (lines 236-244): multiply by
the zoom factor 1.1 when `deltaY > 0` (zoom out), divide by it otherwise
(zoom in), then clamp into `[minDuration, maxDuration]`. -/
def wheelNewDuration (vs : ViewState) (deltaY : ℚ) : ℚ :=
  let zoomFactor : ℚ := 11/10
  let d := if 0 < deltaY then vs.duration * zoomFactor else vs.duration / zoomFactor
  max vs.minDuration (min d vs.maxDuration)

/-- The pre-clamp `newStart` of `handleMouseWheel` (lines 233, 247):
`timeAtMouse - (mouseX / width) * duration'` where
`timeAtMouse = start + (mouseX / width) * duration` is computed before the
duration changes. -/
def wheelNewStart (vs : ViewState) (mouseX width deltaY : ℚ) : ℚ :=
  let timeAtMouse := vs.start + (mouseX / width) * vs.duration
  timeAtMouse - (mouseX / width) * wheelNewDuration vs deltaY

/-- `handleMouseWheel` from `useRenderer.ts` (lines 225-249), as a state
transformer on the view state for a wheel event at canvas offset `mouseX`
on a canvas of width `width` with wheel delta `deltaY`.  The start clamp
runs after the duration field has been updated, as in the source. -/
def handleMouseWheel (vs : ViewState) (mouseX width deltaY : ℚ) : ViewState :=
  let vs' := { vs with duration := wheelNewDuration vs deltaY }
  { vs' with start := clampViewStart vs' (wheelNewStart vs mouseX width deltaY) }

/-- `LOD_FACTORS` from `useRenderer.ts` (line 164). -/
def LOD_FACTORS : List ℕ := [1, 2, 3]

/-- `NUM_LODS` from `useRenderer.ts` (line 165). -/
def NUM_LODS : ℕ := LOD_FACTORS.length

/-- `EVENTS_PER_PIXEL_THRESHOLD` from `useRenderer.ts` (line 168). -/
def EVENTS_PER_PIXEL_THRESHOLD : ℚ := 1500

/-- The LOD-selection loop of the frame callback (lines 555-565): starting
at index `i`, pick the first factor with
`eventsPerPixel / factor ≤ EVENTS_PER_PIXEL_THRESHOLD`; when the last
factor also fails the test the loop leaves `selectedLod` at that last
index (use the coarsest level anyway). -/
def selectLodAux (epp : ℚ) : ℕ → List ℕ → ℕ
  | i, [] => i
  | i, f :: fs =>
    if epp / (f : ℚ) ≤ EVENTS_PER_PIXEL_THRESHOLD then i
    else
      match fs with
      | [] => i
      | _ :: _ => selectLodAux epp (i + 1) fs

/-- The selected LOD index for a given events-per-pixel density. -/
def selectLod (epp : ℚ) : ℕ := selectLodAux epp 0 LOD_FACTORS

/-- The decimation factor of a selected level, `LOD_FACTORS[i] ?? 1`
(line 593). -/
def lodFactorOf (i : ℕ) : ℕ := LOD_FACTORS.getD i 1

theorem selectLod_eq (epp : ℚ) :
    selectLod epp =
      if epp / 1 ≤ 1500 then 0 else if epp / 2 ≤ 1500 then 1 else 2 := by
  simp only [selectLod, selectLodAux, LOD_FACTORS, EVENTS_PER_PIXEL_THRESHOLD]
  norm_num

/-- C6: `clampViewStart` computes `max(lower, min(s, upper))` with
`padding = duration * 0.1`, `lower = minTime - padding`,
`upper = max(lower, maxTime - duration + padding)`; `lower ≤ upper` holds by
construction, the result lies in `[lower, upper]`, and the function is
idempotent. -/
theorem clampViewStart_clamps_and_is_idempotent (vs : ViewState) (s : ℚ) :
    clampViewStart vs s =
      max (vs.minTime - vs.duration * (1/10))
        (min s (max (vs.minTime - vs.duration * (1/10))
          (vs.maxTime - vs.duration + vs.duration * (1/10))))
    ∧ clampLower vs ≤ clampUpper vs
    ∧ clampLower vs ≤ clampViewStart vs s
    ∧ clampViewStart vs s ≤ clampUpper vs
    ∧ clampViewStart vs (clampViewStart vs s) = clampViewStart vs s := by
  have hle : clampLower vs ≤ clampUpper vs := le_max_left _ _
  have hlo : clampLower vs ≤ clampViewStart vs s := le_max_left _ _
  have hhi : clampViewStart vs s ≤ clampUpper vs := by
    rw [clampViewStart_eq]
    exact max_le hle (min_le_right _ _)
  refine ⟨rfl, hle, hlo, hhi, ?_⟩
  rw [clampViewStart_eq vs (clampViewStart vs s), min_eq_left hhi,
    max_eq_right hlo]

/-- C4: the wheel handler multiplies the duration by 1.1 when `deltaY > 0`
and divides it by 1.1 otherwise, clamps it into
`[minDuration, maxDuration]`, and recomputes the start so that the time at
screen fraction `p = mouseX / width` is exactly preserved before the start
clamp engages; the stored start is the clamped `newStart`. -/
theorem handleMouseWheel_anchor_preserving (vs : ViewState) (mouseX width deltaY : ℚ) :
    (handleMouseWheel vs mouseX width deltaY).duration =
      max vs.minDuration
        (min (if 0 < deltaY then vs.duration * (11/10) else vs.duration / (11/10))
          vs.maxDuration)
    ∧ wheelNewStart vs mouseX width deltaY +
        (mouseX / width) * (handleMouseWheel vs mouseX width deltaY).duration =
      vs.start + (mouseX / width) * vs.duration
    ∧ (handleMouseWheel vs mouseX width deltaY).start =
        clampViewStart { vs with duration := wheelNewDuration vs deltaY }
          (wheelNewStart vs mouseX width deltaY) := by
  refine ⟨rfl, ?_, rfl⟩
  simp only [handleMouseWheel, wheelNewStart]
  ring

/-- C3: the LOD selector picks the first level (in increasing factor order
over `[1, 2, 3]`) whose `eventsPerPixel / factor ≤ 1500`, and the coarsest
level when none qualifies, so it always selects a valid level; for
2,000,000 estimated events in view on a 1000 px canvas
(`eventsPerPixel = 2000`) it selects level 1. -/
theorem lodSelector_first_below_threshold (epp : ℚ) :
    selectLod epp = (if epp / 1 ≤ 1500 then 0 else if epp / 2 ≤ 1500 then 1 else 2)
    ∧ selectLod epp < NUM_LODS
    ∧ selectLod ((2000000 : ℚ) / 1000) = 1 := by
  refine ⟨selectLod_eq epp, ?_, ?_⟩
  · rw [selectLod_eq]
    split_ifs <;> simp [NUM_LODS, LOD_FACTORS]
  · rw [selectLod_eq]
    norm_num

/-- C8: LOD selection is monotone in density: a larger events-per-pixel
value never selects a finer decimation factor. -/
theorem selectLod_factor_monotone (e1 e2 : ℚ) (h : e1 ≤ e2) :
    lodFactorOf (selectLod e1) ≤ lodFactorOf (selectLod e2) := by
  rw [selectLod_eq, selectLod_eq]
  split_ifs with h1 h2 h3 h4 h5 <;>
    simp_all [lodFactorOf, LOD_FACTORS] <;> linarith

/-- Witness for C8 at `e1 = 1000`, `e2 = 5000`. -/
theorem selectLod_factor_monotone_witness :
    (1000 : ℚ) ≤ 5000 ∧
      lodFactorOf (selectLod 1000) ≤ lodFactorOf (selectLod 5000) :=
  ⟨by norm_num, selectLod_factor_monotone 1000 5000 (by norm_num)⟩

/-! ## The binary event decoder (`decodeTraceData`, lines 143-154) -/

/-- The 32-bit little-endian words underlying a byte list, one word per
four bytes (trailing bytes that do not fill a word are dropped).  This is
the bit-level content of a `Float32Array` view over the bytes; the IEEE
float interpretation is a fixed bijection on these 32-bit patterns, so the
word list is a faithful model of the view. -/
def word32sLE : List ℕ → List ℕ
  | b0 :: b1 :: b2 :: b3 :: rest =>
    (b0 + 256 * b1 + 256 ^ 2 * b2 + 256 ^ 3 * b3) :: word32sLE rest
  | _ => []

/-- The result of `decodeTraceData`: the `Float32Array` start view (as the
underlying 32-bit words), the `Uint8Array` cmd view, and the JavaScript
`count = byteLength / 5`, which is exact rational division (fractional
when the length is not a multiple of 5). -/
structure DecodedData where
  starts : List ℕ
  cmds : List ℕ
  count : ℚ
deriving Repr, DecidableEq

/-- `decodeTraceData` (lines 143-154).  JavaScript computes
`N = byteLength / 5` as a double; the typed-array view constructors
truncate their length and byte-offset arguments (`ToIndex`), so the start
view has `⌊L/5⌋` elements from byte offset 0 and the cmd view has `⌊L/5⌋`
elements from byte offset `⌊N*4⌋ = ⌊4L/5⌋`.  The only ways the function
can fail are the RangeError bounds checks of the two view constructors,
modelled by the two guards; there is no check that `L` is a multiple
of 5. -/
def decodeTraceData (bytes : List ℕ) : Except String DecodedData :=
  let L := bytes.length
  let N := L / 5
  let startBytes := 4 * L / 5
  if 4 * N > L then .error "RangeError: invalid typed array length"
  else if startBytes + N > L then .error "RangeError: invalid typed array length"
  else .ok { starts := word32sLE (bytes.take (4 * N))
             cmds := (bytes.drop startBytes).take N
             count := (L : ℚ) / 5 }

theorem word32sLE_length : ∀ l : List ℕ, (word32sLE l).length = l.length / 4
  | [] => by simp [word32sLE]
  | [b0] => by simp [word32sLE]
  | [b0, b1] => by simp [word32sLE]
  | [b0, b1, b2] => by simp [word32sLE]
  | b0 :: b1 :: b2 :: b3 :: rest => by
    simp only [word32sLE, List.length_cons, word32sLE_length rest]
    omega

/-- C2 counterexample: the decoder does not fail on a buffer whose length
is not a multiple of 5; on a 7-byte zero buffer it succeeds, returning
views of one element each and the fractional count 7/5. -/
theorem decodeTraceData_no_length_check :
    ¬ (∀ bytes : List ℕ, ¬ (5 ∣ bytes.length) →
        ∃ e, decodeTraceData bytes = .error e) ∧
    decodeTraceData (List.replicate 7 0) =
      .ok { starts := [0], cmds := [0], count := 7/5 } := by
  have hok : decodeTraceData (List.replicate 7 0) =
      .ok { starts := [0], cmds := [0], count := 7/5 } := by
    simp [decodeTraceData, List.replicate, word32sLE]
  refine ⟨fun hclaim => ?_, hok⟩
  obtain ⟨e, he⟩ := hclaim (List.replicate 7 0) (by decide)
  rw [hok] at he
  exact Except.noConfusion he

/-- C2 amended: `decodeTraceData` never fails — the view constructors'
bounds checks always pass — and when the buffer length `L` is an exact
multiple of 5 it produces parallel start/cmd views each of length `L/5`
(and reports `count = L/5`). -/
theorem decodeTraceData_ok (bytes : List ℕ) :
    (∃ d, decodeTraceData bytes = .ok d) ∧
    (5 ∣ bytes.length →
      ∃ d, decodeTraceData bytes = .ok d ∧
        d.starts.length = bytes.length / 5 ∧
        d.cmds.length = bytes.length / 5 ∧
        d.count = (bytes.length : ℚ) / 5) := by
  have hg1 : ¬ (4 * (bytes.length / 5) > bytes.length) := by omega
  have hg2 : ¬ (4 * bytes.length / 5 + bytes.length / 5 > bytes.length) := by omega
  have hok : decodeTraceData bytes =
      .ok { starts := word32sLE (bytes.take (4 * (bytes.length / 5)))
            cmds := (bytes.drop (4 * bytes.length / 5)).take (bytes.length / 5)
            count := (bytes.length : ℚ) / 5 } := by
    simp only [decodeTraceData, if_neg hg1, if_neg hg2]
  refine ⟨⟨_, hok⟩, fun hdvd => ⟨_, hok, ?_, ?_, rfl⟩⟩
  · rw [word32sLE_length, List.length_take]
    omega
  · rw [List.length_take, List.length_drop]
    omega

/-- Witness for C2 (amended) on a 10-byte buffer. -/
theorem decodeTraceData_ok_witness :
    (5 ∣ (List.replicate 10 (0 : ℕ)).length) ∧
    (∃ d, decodeTraceData (List.replicate 10 0) = .ok d ∧
      d.starts.length = (List.replicate 10 (0 : ℕ)).length / 5 ∧
      d.cmds.length = (List.replicate 10 (0 : ℕ)).length / 5 ∧
      d.count = ((List.replicate 10 (0 : ℕ)).length : ℚ) / 5) :=
  ⟨by decide, (decodeTraceData_ok (List.replicate 10 0)).2 (by decide)⟩

/-- C10: on a buffer of length `5 * N` the decoder uses a planar
(struct-of-arrays) layout: the start view is exactly the 32-bit words of
the first `4 * N` bytes, the cmd view is exactly the remaining `N` bytes
starting at offset `4 * N` (not interleaved 5-byte records), and
`count = N`.  The views are modelled as pure projections of the same
input bytes, mirroring the zero-copy typed-array views over the input
buffer. -/
theorem decodeTraceData_planar_layout (N : ℕ) (bytes : List ℕ)
    (hlen : bytes.length = 5 * N) :
    ∃ d, decodeTraceData bytes = .ok d ∧
      d.starts = word32sLE (bytes.take (4 * N)) ∧
      d.starts.length = N ∧
      d.cmds = bytes.drop (4 * N) ∧
      d.cmds.length = N ∧
      d.count = (N : ℚ) := by
  have hg1 : ¬ (4 * (bytes.length / 5) > bytes.length) := by omega
  have hg2 : ¬ (4 * bytes.length / 5 + bytes.length / 5 > bytes.length) := by omega
  have hN : bytes.length / 5 = N := by omega
  have hSB : 4 * bytes.length / 5 = 4 * N := by omega
  have hok : decodeTraceData bytes =
      .ok { starts := word32sLE (bytes.take (4 * (bytes.length / 5)))
            cmds := (bytes.drop (4 * bytes.length / 5)).take (bytes.length / 5)
            count := (bytes.length : ℚ) / 5 } := by
    simp only [decodeTraceData, if_neg hg1, if_neg hg2]
  refine ⟨_, hok, ?_, ?_, ?_, ?_, ?_⟩
  · rw [hN]
  · rw [word32sLE_length, List.length_take]
    omega
  · show List.take (bytes.length / 5) (List.drop (4 * bytes.length / 5) bytes) =
      List.drop (4 * N) bytes
    rw [hSB, hN]
    exact List.take_of_length_le (by rw [List.length_drop]; omega)
  · rw [hSB, hN, List.length_take, List.length_drop]
    omega
  · rw [hlen]
    push_cast
    ring

/-- Witness for C10 on the concrete 10-byte buffer
`[1, 2, 3, 4, 5, 6, 7, 8, 9, 10]` (`N = 2`). -/
theorem decodeTraceData_planar_layout_witness :
    ([1, 2, 3, 4, 5, 6, 7, 8, 9, 10] : List ℕ).length = 5 * 2 ∧
    ∃ d, decodeTraceData [1, 2, 3, 4, 5, 6, 7, 8, 9, 10] = .ok d ∧
      d.starts = word32sLE (([1, 2, 3, 4, 5, 6, 7, 8, 9, 10] : List ℕ).take (4 * 2)) ∧
      d.starts.length = 2 ∧
      d.cmds = ([1, 2, 3, 4, 5, 6, 7, 8, 9, 10] : List ℕ).drop (4 * 2) ∧
      d.cmds.length = 2 ∧
      d.count = (2 : ℚ) :=
  ⟨by decide, decodeTraceData_planar_layout 2 [1, 2, 3, 4, 5, 6, 7, 8, 9, 10] (by decide)⟩

/-! ## The stream loader (`startStream`, lines 303-426) -/

/-- One chunk-index entry `{ time, offset }` (line 173). -/
structure ChunkEntry where
  time : ℚ
  offset : ℕ
deriving Repr, DecidableEq

/-- One LOD level of the store (lines 170-176).  `buffer` is the decoded
content written so far to the level's `startBuffer`/`cmdBuffer` pair
(always appended at the level's current write offset, so modelled as a
growing list); `loadedCount` mirrors the source's `lodOffsets[i]`, equal
to `lod.loadedCount` after each batch. -/
structure LODLevel where
  buffer : List Event
  chunkIndex : List ChunkEntry
  loadedCount : ℕ
  totalCount : ℕ
deriving Repr, DecidableEq

/-- The per-batch decimation loop of one level (lines 390-399): keep the
events of the batch whose global stream index (`globalEventIndex + i`,
threaded here as `g0`) is divisible by the level's factor, in order. -/
def decimateBatch (factor g0 : ℕ) : List Event → List Event
  | [] => []
  | e :: es =>
    if g0 % factor = 0 then e :: decimateBatch factor (g0 + 1) es
    else decimateBatch factor (g0 + 1) es

/-- One level's share of the body of the per-batch loop (lines 384-411):
decimate the batch, and when it kept anything, push a chunk-index entry
`{ time: firstKept.start, offset: lodOffsets[i] }` — but only when the
level already holds data and the batch is not the one at stream offset 0
— then append the kept events and advance `lodOffsets[i]` and
`loadedCount`. -/
def processLevelBatch (factor batchOffset g0 : ℕ) (batch : List Event)
    (lod : LODLevel) : LODLevel :=
  match decimateBatch factor g0 batch with
  | [] => lod
  | e :: kept =>
    { buffer := lod.buffer ++ e :: kept
      chunkIndex :=
        if 0 < lod.loadedCount ∧ 0 < batchOffset then
          lod.chunkIndex ++ [{ time := e.start, offset := lod.loadedCount }]
        else lod.chunkIndex
      loadedCount := lod.loadedCount + (e :: kept).length
      totalCount := lod.totalCount }

/-- A freshly allocated LOD level (lines 321-332: `totalCount` is
`Math.ceil(totalEntries / factor)`), seeded with the first chunk-index
entry `{ time: firstData.starts[0], offset: 0 }` that `startStream`
pushes for a non-empty stream before the batch loop (lines 344-354). -/
def initLODLevel (factor totalEntries : ℕ) (es : List Event) : LODLevel :=
  { buffer := []
    chunkIndex :=
      match es with
      | [] => []
      | e :: _ => [{ time := e.start, offset := 0 }]
    loadedCount := 0
    totalCount := (totalEntries + factor - 1) / factor }

/-- The batch loop of `startStream` (lines 366-422) restricted to one LOD
level: process the batches in order, threading the backend offset
(`offset`) and the global event index (`globalEventIndex`); both advance
by each batch's decoded count. -/
def streamLoop (factor : ℕ) : LODLevel → ℕ → ℕ → List (List Event) → LODLevel
  | lod, _, _, [] => lod
  | lod, offset, g0, b :: bs =>
    streamLoop factor (processLevelBatch factor offset g0 b lod)
      (offset + b.length) (g0 + b.length) bs

/-- `startStream` restricted to the LOD level with keep-factor `factor`:
the trace stream is the event list `es` (declared length
`totalEntries`), delivered front-to-back in successive batches
`batches`. -/
def startStreamLevel (factor totalEntries : ℕ) (es : List Event)
    (batches : List (List Event)) : LODLevel :=
  streamLoop factor (initLODLevel factor totalEntries es) 0 0 batches

/-- The specification's decimation rule, written from the spec's words:
keep exactly the events whose global stream index `g` satisfies
`g % factor = 0`, in increasing order of `g`. -/
def globalDecimation (factor : ℕ) (es : List Event) : List Event :=
  (es.enum.filter (fun p => p.1 % factor = 0)).map Prod.snd

theorem decimateBatch_append (factor : ℕ) (xs ys : List Event) :
    ∀ g0 : ℕ, decimateBatch factor g0 (xs ++ ys) =
      decimateBatch factor g0 xs ++ decimateBatch factor (g0 + xs.length) ys := by
  induction xs with
  | nil =>
    intro g0
    simp [decimateBatch]
  | cons x xs ih =>
    intro g0
    simp only [List.cons_append, decimateBatch, List.length_cons, List.append_eq]
    have h1 : g0 + (xs.length + 1) = (g0 + 1) + xs.length := by omega
    rw [h1]
    by_cases h : g0 % factor = 0
    · rw [if_pos h, if_pos h, ih (g0 + 1), List.cons_append]
    · rw [if_neg h, if_neg h, ih (g0 + 1)]

theorem decimateBatch_eq_enumFrom (factor : ℕ) :
    ∀ (g0 : ℕ) (es : List Event),
      decimateBatch factor g0 es =
        ((List.enumFrom g0 es).filter (fun p => p.1 % factor = 0)).map Prod.snd := by
  intro g0 es
  induction es generalizing g0 with
  | nil => simp [decimateBatch]
  | cons e es ih =>
    simp only [decimateBatch, List.enumFrom, List.filter, ih (g0 + 1)]
    by_cases h : g0 % factor = 0 <;> simp [h]

theorem processLevelBatch_buffer (factor off g0 : ℕ) (b : List Event)
    (lod : LODLevel) :
    (processLevelBatch factor off g0 b lod).buffer =
      lod.buffer ++ decimateBatch factor g0 b := by
  unfold processLevelBatch
  cases h : decimateBatch factor g0 b with
  | nil => simp
  | cons e kept => simp

theorem streamLoop_buffer (factor : ℕ) :
    ∀ (bs : List (List Event)) (lod : LODLevel) (off g0 : ℕ),
      (streamLoop factor lod off g0 bs).buffer =
        lod.buffer ++ decimateBatch factor g0 bs.flatten := by
  intro bs
  induction bs with
  | nil => simp [streamLoop, decimateBatch]
  | cons b bs ih =>
    intro lod off g0
    simp only [streamLoop, ih, processLevelBatch_buffer, List.flatten_cons,
      decimateBatch_append, List.append_assoc]

/-- C1: for every keep-factor of `LOD_FACTORS` and every partition of the
stream into successive batches, the events the loader appends to the
level's buffers are exactly those whose global stream index `g` satisfies
`g % factor = 0`, in increasing order of `g` — independent of the batch
sizes, since the right-hand side does not mention `batches`. -/
theorem startStreamLevel_decimation_parity (factor totalEntries : ℕ)
    (es : List Event) (batches : List (List Event))
    (_hfactor : factor ∈ LOD_FACTORS) (hjoin : batches.flatten = es) :
    (startStreamLevel factor totalEntries es batches).buffer =
      globalDecimation factor es := by
  rw [startStreamLevel, streamLoop_buffer, hjoin, decimateBatch_eq_enumFrom]
  simp [initLODLevel, globalDecimation, List.enum]

/-- Witness for C1: a 7-event stream with factor 2 delivered in batches of
sizes 3, 1, 3 yields exactly the events at global indices 0, 2, 4, 6. -/
theorem startStreamLevel_decimation_parity_witness :
    (2 ∈ LOD_FACTORS) ∧
    ([[⟨0, 0⟩, ⟨1, 1⟩, ⟨2, 2⟩], [⟨3, 3⟩], [⟨4, 4⟩, ⟨5, 5⟩, ⟨6, 6⟩]] :
        List (List Event)).flatten =
      [⟨0, 0⟩, ⟨1, 1⟩, ⟨2, 2⟩, ⟨3, 3⟩, ⟨4, 4⟩, ⟨5, 5⟩, ⟨6, 6⟩] ∧
    (startStreamLevel 2 7 [⟨0, 0⟩, ⟨1, 1⟩, ⟨2, 2⟩, ⟨3, 3⟩, ⟨4, 4⟩, ⟨5, 5⟩, ⟨6, 6⟩]
        [[⟨0, 0⟩, ⟨1, 1⟩, ⟨2, 2⟩], [⟨3, 3⟩], [⟨4, 4⟩, ⟨5, 5⟩, ⟨6, 6⟩]]).buffer =
      globalDecimation 2 [⟨0, 0⟩, ⟨1, 1⟩, ⟨2, 2⟩, ⟨3, 3⟩, ⟨4, 4⟩, ⟨5, 5⟩, ⟨6, 6⟩] :=
  ⟨by decide, by decide,
    startStreamLevel_decimation_parity 2 7 _ _ (by decide) (by decide)⟩

/-! ## Chunk-index invariants (C7) -/

/-- Events kept by the decimation loop come from the batch. -/
theorem decimateBatch_mem (factor : ℕ) (b : List Event) :
    ∀ (g0 : ℕ) (x : Event), x ∈ decimateBatch factor g0 b → x ∈ b := by
  induction b with
  | nil =>
    intro g0 x hx
    simp [decimateBatch] at hx
  | cons e es ih =>
    intro g0 x hx
    simp only [decimateBatch] at hx
    by_cases h : g0 % factor = 0
    · rw [if_pos h] at hx
      rcases List.mem_cons.mp hx with h1 | h2
      · exact h1 ▸ List.mem_cons_self _ _
      · exact List.mem_cons_of_mem _ (ih (g0 + 1) x h2)
    · rw [if_neg h] at hx
      exact List.mem_cons_of_mem _ (ih (g0 + 1) x hx)

/-- The invariants the chunk index of one level maintains while the
stream loads: it stays non-empty with its first entry at offset 0, its
times are non-decreasing, its offsets strictly increasing, and every
offset points into the loaded region. -/
def ChunkIndexInv (lod : LODLevel) : Prop :=
  lod.chunkIndex ≠ [] ∧
  (∀ e, lod.chunkIndex.head? = some e → e.offset = 0) ∧
  List.Pairwise (fun a b => a.time ≤ b.time) lod.chunkIndex ∧
  List.Pairwise (fun a b => a.offset < b.offset) lod.chunkIndex ∧
  (∀ x ∈ lod.chunkIndex, x.offset ≤ lod.loadedCount) ∧
  (0 < lod.loadedCount → ∀ x ∈ lod.chunkIndex, x.offset < lod.loadedCount)

/-- Any chunk-index entry after a batch is either an old entry or carries
the start time of an event of the batch. -/
theorem processLevelBatch_chunkIndex_mem (factor off g0 : ℕ) (b : List Event)
    (lod : LODLevel) :
    ∀ x ∈ (processLevelBatch factor off g0 b lod).chunkIndex,
      x ∈ lod.chunkIndex ∨ ∃ ev ∈ b, x.time = ev.start := by
  intro x hx
  unfold processLevelBatch at hx
  split at hx
  · exact Or.inl hx
  · rename_i e kept hk
    dsimp only at hx
    by_cases hpush : 0 < lod.loadedCount ∧ 0 < off
    · rw [if_pos hpush] at hx
      rcases List.mem_append.mp hx with h1 | h2
      · exact Or.inl h1
      · have hx2 : x = { time := e.start, offset := lod.loadedCount } := by
          simpa using h2
        refine Or.inr ⟨e, ?_, by rw [hx2]⟩
        exact decimateBatch_mem factor b g0 e (hk ▸ List.mem_cons_self _ _)
    · rw [if_neg hpush] at hx
      exact Or.inl hx

/-- One batch preserves the chunk-index invariants, provided every event
of the batch starts no earlier than every recorded chunk time. -/
theorem processLevelBatch_inv (factor off g0 : ℕ) (b : List Event)
    (lod : LODLevel) (hInv : ChunkIndexInv lod)
    (hb : ∀ x ∈ lod.chunkIndex, ∀ ev ∈ b, x.time ≤ ev.start) :
    ChunkIndexInv (processLevelBatch factor off g0 b lod) := by
  obtain ⟨hne, hhead, htimes, hoffs, hle, hlt⟩ := hInv
  unfold processLevelBatch
  split
  · exact ⟨hne, hhead, htimes, hoffs, hle, hlt⟩
  · rename_i e kept hk
    have he_mem : e ∈ b :=
      decimateBatch_mem factor b g0 e (hk ▸ List.mem_cons_self _ _)
    have hlen : 0 < (e :: kept).length := by simp
    by_cases hpush : 0 < lod.loadedCount ∧ 0 < off
    · refine ⟨?_, ?_, ?_, ?_, ?_, ?_⟩ <;> dsimp only <;> rw [if_pos hpush]
      · simp
      · intro x hx
        cases hci : lod.chunkIndex with
        | nil => exact absurd hci hne
        | cons c cs =>
          rw [hci] at hx
          simp only [List.cons_append, List.head?_cons] at hx
          exact hhead x (by rw [hci, List.head?_cons, ← hx])
      · rw [List.pairwise_append]
        refine ⟨htimes, List.pairwise_singleton _ _, ?_⟩
        intro a ha y hy
        rw [List.mem_singleton.mp hy]
        exact hb a ha e he_mem
      · rw [List.pairwise_append]
        refine ⟨hoffs, List.pairwise_singleton _ _, ?_⟩
        intro a ha y hy
        rw [List.mem_singleton.mp hy]
        exact hlt hpush.1 a ha
      · intro x hx
        rcases List.mem_append.mp hx with h1 | h2
        · have := hle x h1
          omega
        · have hx2 : x = { time := e.start, offset := lod.loadedCount } := by
            simpa using h2
          rw [hx2]
          dsimp only
          omega
      · intro _ x hx
        rcases List.mem_append.mp hx with h1 | h2
        · have := hlt hpush.1 x h1
          omega
        · have hx2 : x = { time := e.start, offset := lod.loadedCount } := by
            simpa using h2
          rw [hx2]
          dsimp only
          omega
    · refine ⟨?_, ?_, ?_, ?_, ?_, ?_⟩ <;> dsimp only <;> rw [if_neg hpush]
      · exact hne
      · exact hhead
      · exact htimes
      · exact hoffs
      · intro x hx
        have := hle x hx
        omega
      · intro _ x hx
        have h1 := hle x hx
        by_cases hL : 0 < lod.loadedCount
        · have := hlt hL x hx
          omega
        · omega

/-- The whole batch loop preserves the chunk-index invariants when the
not-yet-processed events are time-sorted and start no earlier than every
recorded chunk time. -/
theorem streamLoop_inv (factor : ℕ) :
    ∀ (bs : List (List Event)) (lod : LODLevel) (off g0 : ℕ),
      ChunkIndexInv lod →
      List.Pairwise (fun a b => a.start ≤ b.start) bs.flatten →
      (∀ x ∈ lod.chunkIndex, ∀ ev ∈ bs.flatten, x.time ≤ ev.start) →
      ChunkIndexInv (streamLoop factor lod off g0 bs) := by
  intro bs
  induction bs with
  | nil =>
    intro lod off g0 hInv _ _
    exact hInv
  | cons b bs ih =>
    intro lod off g0 hInv hsorted hcross
    rw [List.flatten_cons] at hsorted hcross
    have hsorted' := List.pairwise_append.mp hsorted
    simp only [streamLoop]
    apply ih
    · exact processLevelBatch_inv factor off g0 b lod hInv
        (fun x hx ev hev => hcross x hx ev (List.mem_append_left _ hev))
    · exact hsorted'.2.1
    · intro x hx ev hev
      rcases processLevelBatch_chunkIndex_mem factor off g0 b lod x hx with hold | hnew
      · exact hcross x hold ev (List.mem_append_right _ hev)
      · obtain ⟨ev', hev', hx2⟩ := hnew
        rw [hx2]
        exact hsorted'.2.2 ev' hev' ev hev

/-- C7: for a non-empty, time-sorted stream, at every point during
streaming (i.e. after the seeding of the first chunk-index entry and any
number of processed batches, `batches.flatten` being the part of the
stream delivered so far) each level's chunk index has non-decreasing
times, strictly increasing offsets, and its first entry at offset 0; and
a batch that contributes no kept events to a level leaves the level —
in particular its chunk index — unchanged. -/
theorem startStream_chunkIndex_monotone (factor totalEntries : ℕ)
    (es : List Event) (batches : List (List Event)) (rest : List Event)
    (hne : es ≠ [])
    (hsorted : List.Pairwise (fun a b => a.start ≤ b.start) es)
    (hjoin : batches.flatten ++ rest = es) :
    (List.Pairwise (fun a b => a.time ≤ b.time)
        (startStreamLevel factor totalEntries es batches).chunkIndex ∧
      List.Pairwise (fun a b => a.offset < b.offset)
        (startStreamLevel factor totalEntries es batches).chunkIndex ∧
      (∃ e, (startStreamLevel factor totalEntries es batches).chunkIndex.head? = some e ∧
        e.offset = 0)) ∧
    (∀ (off g0 : ℕ) (b : List Event) (lod : LODLevel),
      decimateBatch factor g0 b = [] →
      processLevelBatch factor off g0 b lod = lod) := by
  constructor
  · cases es with
    | nil => exact absurd rfl hne
    | cons e0 es' =>
      have hInv0 : ChunkIndexInv (initLODLevel factor totalEntries (e0 :: es')) := by
        refine ⟨by simp [initLODLevel], ?_, ?_, ?_, ?_, ?_⟩ <;>
          simp [initLODLevel]
      have hmem_es : ∀ ev ∈ batches.flatten, ev ∈ e0 :: es' := by
        intro ev hev
        rw [← hjoin]
        exact List.mem_append_left _ hev
      have hstart0 : ∀ ev ∈ e0 :: es', e0.start ≤ ev.start := by
        intro ev hev
        rcases List.mem_cons.mp hev with h | h
        · rw [h]
        · exact (List.pairwise_cons.mp hsorted).1 ev h
      have hflat_sorted : List.Pairwise (fun a b => a.start ≤ b.start) batches.flatten :=
        (hjoin ▸ hsorted).sublist (List.sublist_append_left _ _)
      have hfinal : ChunkIndexInv (startStreamLevel factor totalEntries (e0 :: es') batches) := by
        refine streamLoop_inv factor batches
          (initLODLevel factor totalEntries (e0 :: es')) 0 0 hInv0 hflat_sorted ?_
        intro x hx ev hev
        have hx0 : x = { time := e0.start, offset := 0 } := by
          simpa [initLODLevel] using hx
        rw [hx0]
        exact hstart0 ev (hmem_es ev hev)
      obtain ⟨hne', hhead', htimes', hoffs', _, _⟩ := hfinal
      refine ⟨htimes', hoffs', ?_⟩
      cases hci : (startStreamLevel factor totalEntries (e0 :: es') batches).chunkIndex with
      | nil => exact absurd hci hne'
      | cons c cs =>
        exact ⟨c, rfl, hhead' c (by rw [hci, List.head?_cons])⟩
  · intro off g0 b lod h
    unfold processLevelBatch
    rw [h]

/-- Witness for C7: a 4-event sorted stream with factor 2, delivered in
batches of sizes 2 and 1 with one event still outstanding. -/
theorem startStream_chunkIndex_monotone_witness :
    (([⟨0, 0⟩, ⟨1, 1⟩, ⟨2, 2⟩, ⟨3, 3⟩] : List Event) ≠ [] ∧
      List.Pairwise (fun a b => a.start ≤ b.start)
        ([⟨0, 0⟩, ⟨1, 1⟩, ⟨2, 2⟩, ⟨3, 3⟩] : List Event) ∧
      ([[⟨0, 0⟩, ⟨1, 1⟩], [⟨2, 2⟩]] : List (List Event)).flatten ++ [⟨3, 3⟩] =
        ([⟨0, 0⟩, ⟨1, 1⟩, ⟨2, 2⟩, ⟨3, 3⟩] : List Event)) ∧
    (List.Pairwise (fun a b => a.time ≤ b.time)
        (startStreamLevel 2 4 [⟨0, 0⟩, ⟨1, 1⟩, ⟨2, 2⟩, ⟨3, 3⟩]
          [[⟨0, 0⟩, ⟨1, 1⟩], [⟨2, 2⟩]]).chunkIndex ∧
      List.Pairwise (fun a b => a.offset < b.offset)
        (startStreamLevel 2 4 [⟨0, 0⟩, ⟨1, 1⟩, ⟨2, 2⟩, ⟨3, 3⟩]
          [[⟨0, 0⟩, ⟨1, 1⟩], [⟨2, 2⟩]]).chunkIndex ∧
      (∃ e, (startStreamLevel 2 4 [⟨0, 0⟩, ⟨1, 1⟩, ⟨2, 2⟩, ⟨3, 3⟩]
          [[⟨0, 0⟩, ⟨1, 1⟩], [⟨2, 2⟩]]).chunkIndex.head? = some e ∧ e.offset = 0)) :=
  ⟨⟨by decide, by decide, by decide⟩,
    (startStream_chunkIndex_monotone 2 4 _ _ [⟨3, 3⟩]
      (by decide) (by decide) (by decide)).1⟩

/-! ## The frame callback (lines 492-611): range lookup and draw (C5) -/

/-- The range-lookup loop for the window start (lines 540-543 and
571-579): walk the chunk index in order, remembering the offset of the
last entry whose time is not past `viewStart`, stopping at the first
entry beyond it.  `acc` is the running `startOffset`, initially 0. -/
def findStartOffset (viewStart : ℚ) : ℕ → List ChunkEntry → ℕ
  | acc, [] => acc
  | acc, e :: rest =>
    if e.time > viewStart then acc else findStartOffset viewStart e.offset rest

/-- The range-lookup loop for the window end (lines 544-549 and 581-589):
the offset of the first chunk-index entry whose time exceeds `viewEnd`,
or `loadedCount` when there is none.  (The source's `i ==
chunkIndex.length - 1` branch re-assigns the initial default
`loadedCount`, so it is behaviourally the same.) -/
def findEndOffset (viewEnd : ℚ) (loadedCount : ℕ) : List ChunkEntry → ℕ
  | [] => loadedCount
  | e :: rest =>
    if e.time > viewEnd then e.offset else findEndOffset viewEnd loadedCount rest

/-- The instanced draw call issued by one frame: the selected LOD index
(`stats.currentLod`), the buffer element offset (`props.offset`) and the
instance count `Math.max(0, endOffset - startOffset)`
(`stats.instancesDrawn`). -/
structure FrameResult where
  selectedLod : ℕ
  drawOffset : ℕ
  instancesDrawn : ℤ
deriving Repr, DecidableEq

/-- The data path of one `regl.frame` callback (lines 518-602), given the
current LOD store and view: when no levels exist or level 0 has loaded
nothing, the frame only clears and updates the FPS counter and issues no
draw (`none`); otherwise it estimates the events in view from level 0's
chunk index, derives `eventsPerPixel`, selects a LOD, computes the
`[startOffset, endOffset)` range on the selected level and issues one
draw of `max(0, endOffset - startOffset)` instances at `startOffset`. -/
def renderFrame (lodLevels : List LODLevel) (viewStart duration canvasWidth : ℚ) :
    Option FrameResult :=
  match lodLevels with
  | [] => none
  | lod0 :: restLevels =>
    if lod0.loadedCount = 0 then none
    else
      let viewEnd := viewStart + duration
      let viewStartOffset := findStartOffset viewStart 0 lod0.chunkIndex
      let viewEndOffset := findEndOffset viewEnd lod0.loadedCount lod0.chunkIndex
      let estimatedEventsInView : ℤ := (viewEndOffset : ℤ) - (viewStartOffset : ℤ)
      let eventsPerPixel : ℚ := (estimatedEventsInView : ℚ) / canvasWidth
      let selected := selectLod eventsPerPixel
      let lod := (lod0 :: restLevels).getD selected lod0
      let startOffset := findStartOffset viewStart 0 lod.chunkIndex
      let endOffset := findEndOffset viewEnd lod.loadedCount lod.chunkIndex
      some { selectedLod := selected
             drawOffset := startOffset
             instancesDrawn := max 0 ((endOffset : ℤ) - (startOffset : ℤ)) }

theorem findStartOffset_le (viewStart : ℚ) (L : ℕ) :
    ∀ (ci : List ChunkEntry) (acc : ℕ), acc ≤ L → (∀ x ∈ ci, x.offset ≤ L) →
      findStartOffset viewStart acc ci ≤ L := by
  intro ci
  induction ci with
  | nil =>
    intro acc hacc _
    exact hacc
  | cons e rest ih =>
    intro acc hacc hall
    rw [findStartOffset]
    split
    · exact hacc
    · exact ih e.offset (hall e (List.mem_cons_self _ _))
        (fun x hx => hall x (List.mem_cons_of_mem _ hx))

theorem findEndOffset_le (viewEnd : ℚ) (L : ℕ) :
    ∀ ci : List ChunkEntry, (∀ x ∈ ci, x.offset ≤ L) →
      findEndOffset viewEnd L ci ≤ L := by
  intro ci
  induction ci with
  | nil =>
    intro _
    exact le_refl L
  | cons e rest ih =>
    intro hall
    rw [findEndOffset]
    split
    · exact hall e (List.mem_cons_self _ _)
    · exact ih (fun x hx => hall x (List.mem_cons_of_mem _ hx))

/-- C5: for any store state whose chunk-index offsets point into the
loaded region — an invariant the loader maintains — the frame render pass
always completes with a well-defined result: with no levels or nothing
loaded it draws nothing, and otherwise it draws exactly
`max(0, endOffset - startOffset)` instances on the selected level, a
count that never exceeds the level's `loadedCount`, with the drawn range
`[drawOffset, drawOffset + instances)` inside the loaded region. -/
theorem renderFrame_partial_load_safe (lodLevels : List LODLevel)
    (viewStart duration canvasWidth : ℚ)
    (hinv : ∀ lod ∈ lodLevels, ∀ x ∈ lod.chunkIndex, x.offset ≤ lod.loadedCount) :
    ((lodLevels = [] ∨ (∃ lod0 rest, lodLevels = lod0 :: rest ∧ lod0.loadedCount = 0)) →
      renderFrame lodLevels viewStart duration canvasWidth = none) ∧
    (∀ r, renderFrame lodLevels viewStart duration canvasWidth = some r →
      ∃ lod ∈ lodLevels,
        r.instancesDrawn =
          max 0 ((findEndOffset (viewStart + duration) lod.loadedCount lod.chunkIndex : ℤ) -
            (findStartOffset viewStart 0 lod.chunkIndex : ℤ)) ∧
        r.drawOffset = findStartOffset viewStart 0 lod.chunkIndex ∧
        0 ≤ r.instancesDrawn ∧
        r.instancesDrawn.toNat ≤ lod.loadedCount ∧
        r.drawOffset + r.instancesDrawn.toNat ≤ lod.loadedCount) := by
  constructor
  · rintro (h0 | ⟨lod0, rest, hlv, h0⟩)
    · rw [h0, renderFrame]
    · rw [hlv, renderFrame, if_pos h0]
  · intro r hr
    cases lodLevels with
    | nil => exact absurd hr (by rw [renderFrame]; simp)
    | cons lod0 restLevels =>
      rw [renderFrame] at hr
      by_cases h0 : lod0.loadedCount = 0
      · rw [if_pos h0] at hr
        exact absurd hr (by simp)
      · rw [if_neg h0] at hr
        simp only [Option.some.injEq] at hr
        set selected := selectLod
          ((((findEndOffset (viewStart + duration) lod0.loadedCount lod0.chunkIndex : ℤ) -
            (findStartOffset viewStart 0 lod0.chunkIndex : ℤ) : ℤ) : ℚ) / canvasWidth) with hsel
        set lod := (lod0 :: restLevels).getD selected lod0 with hlod
        have hmem : lod ∈ lod0 :: restLevels := by
          rw [hlod]
          by_cases hs : selected < (lod0 :: restLevels).length
          · rw [List.getD_eq_getElem _ _ hs]
            exact List.getElem_mem _
          · rw [List.getD_eq_default _ _ (by omega)]
            exact List.mem_cons_self _ _
        have hstart_le : findStartOffset viewStart 0 lod.chunkIndex ≤ lod.loadedCount :=
          findStartOffset_le viewStart lod.loadedCount lod.chunkIndex 0
            (Nat.zero_le _) (hinv lod hmem)
        have hend_le : findEndOffset (viewStart + duration) lod.loadedCount lod.chunkIndex ≤
            lod.loadedCount :=
          findEndOffset_le (viewStart + duration) lod.loadedCount lod.chunkIndex
            (hinv lod hmem)
        refine ⟨lod, hmem, ?_, ?_, ?_, ?_, ?_⟩
        · rw [← hr]
        · rw [← hr]
        · rw [← hr]
          exact le_max_left _ _
        · rw [← hr]
          dsimp only
          omega
        · rw [← hr]
          dsimp only
          omega

/-- A one-level partially loaded store used to exercise the render pass:
one event loaded out of a declared three. -/
def demoStore : List LODLevel :=
  [{ buffer := [⟨5, 0⟩]
     chunkIndex := [{ time := 5, offset := 0 }]
     loadedCount := 1
     totalCount := 3 }]

/-- Witness for C5 on a one-level store with a single loaded event. -/
theorem renderFrame_partial_load_safe_witness :
    (∀ lod ∈ demoStore, ∀ x ∈ lod.chunkIndex, x.offset ≤ lod.loadedCount) ∧
    (∀ r, renderFrame demoStore 0 100 1920 = some r →
      ∃ lod ∈ demoStore,
        r.instancesDrawn =
          max 0 ((findEndOffset (0 + 100) lod.loadedCount lod.chunkIndex : ℤ) -
            (findStartOffset 0 0 lod.chunkIndex : ℤ)) ∧
        r.drawOffset = findStartOffset 0 0 lod.chunkIndex ∧
        0 ≤ r.instancesDrawn ∧
        r.instancesDrawn.toNat ≤ lod.loadedCount ∧
        r.drawOffset + r.instancesDrawn.toNat ≤ lod.loadedCount) :=
  ⟨by decide,
    (renderFrame_partial_load_safe demoStore 0 100 1920 (by decide)).2⟩

/-! ## The timeline ruler (`Timeline.vue`): tick spacing (C9) -/

/-- `getStepSize` from `Timeline.vue` (lines 34-45): the target step is
`duration * (100 / width)` (100 target pixels per tick), `power` is
`Math.floor(Math.log10(targetStep))` — modelled exactly by `Int.log 10` —
and the loop returns the first of `base * [1, 2, 5, 10]` that reaches the
target step, with `base * 10` as the fallback return. -/
def getStepSize (duration width : ℚ) : ℚ :=
  let targetPixelsPerTick : ℚ := 100
  let targetStep := duration * (targetPixelsPerTick / width)
  let power := Int.log 10 targetStep
  let base : ℚ := (10 : ℚ) ^ power
  if base * 1 ≥ targetStep then base * 1
  else if base * 2 ≥ targetStep then base * 2
  else if base * 5 ≥ targetStep then base * 5
  else if base * 10 ≥ targetStep then base * 10
  else base * 10

/-- A "nice" ruler step: 1, 2 or 5 times a power of ten (10 × a power of
ten is the next power of ten). -/
def isNiceStep (s : ℚ) : Prop :=
  ∃ k : ℤ, s = (10 : ℚ) ^ k ∨ s = 2 * (10 : ℚ) ^ k ∨ s = 5 * (10 : ℚ) ^ k

/-- A nice value at least `t` is `10^k`, `2·10^k`, `5·10^k` (for
`k = Int.log 10 t`) or at least `10^(k+1)`. -/
theorem nice_ge_cases (t s : ℚ) (ht : 0 < t) (hs : isNiceStep s) (hts : t ≤ s) :
    s = (10 : ℚ) ^ (Int.log 10 t) ∨ s = 2 * (10 : ℚ) ^ (Int.log 10 t) ∨
      s = 5 * (10 : ℚ) ^ (Int.log 10 t) ∨ (10 : ℚ) ^ (Int.log 10 t + 1) ≤ s := by
  obtain ⟨j, hj⟩ := hs
  have hbl : (10 : ℚ) ^ (Int.log 10 t) ≤ t := Int.zpow_log_le_self (by norm_num) ht
  rcases lt_trichotomy j (Int.log 10 t) with hjk | hjk | hjk
  · exfalso
    have h10 : (10 : ℚ) ^ j ≤ 10 ^ (Int.log 10 t - 1) :=
      zpow_le_zpow_right₀ (by norm_num) (by omega)
    have hkk : Int.log 10 t - 1 + 1 = Int.log 10 t := by omega
    have hsplit : (10 : ℚ) ^ (Int.log 10 t) = 10 ^ (Int.log 10 t - 1) * 10 := by
      rw [← zpow_add_one₀ (by norm_num : (10 : ℚ) ≠ 0), hkk]
    have hjpos : (0 : ℚ) < 10 ^ j := zpow_pos (by norm_num) j
    have hkpos : (0 : ℚ) < 10 ^ (Int.log 10 t - 1) := zpow_pos (by norm_num) _
    have hsle : s ≤ 5 * (10 : ℚ) ^ (Int.log 10 t - 1) := by
      rcases hj with h | h | h <;> rw [h] <;> nlinarith
    nlinarith
  · subst hjk
    rcases hj with h | h | h
    · exact Or.inl h
    · exact Or.inr (Or.inl h)
    · exact Or.inr (Or.inr (Or.inl h))
  · refine Or.inr (Or.inr (Or.inr ?_))
    have h10 : (10 : ℚ) ^ (Int.log 10 t + 1) ≤ 10 ^ j :=
      zpow_le_zpow_right₀ (by norm_num) (by omega)
    have hjpos : (0 : ℚ) < 10 ^ j := zpow_pos (by norm_num) j
    rcases hj with h | h | h <;> rw [h] <;> nlinarith

/-- C9: for a positive view duration and canvas width, `getStepSize`
returns a nice value (1, 2 or 5 times a power of ten, 10 × a power of ten
being the next power), it is the least nice value reaching the target
step `duration * (100 / width)` — so the resulting pixels per tick is the
closest a nice value can get to the 100 px target from above — and it
stays within a factor 5/2 of the target step. -/
theorem getStepSize_least_nice (duration width : ℚ)
    (hd : 0 < duration) (hw : 0 < width) :
    isNiceStep (getStepSize duration width) ∧
    duration * (100 / width) ≤ getStepSize duration width ∧
    (∀ s : ℚ, isNiceStep s → duration * (100 / width) ≤ s →
      getStepSize duration width ≤ s) ∧
    getStepSize duration width < (5 / 2) * (duration * (100 / width)) := by
  set t := duration * (100 / width) with htdef
  have ht : 0 < t := mul_pos hd (div_pos (by norm_num) hw)
  set k := Int.log 10 t with hkdef
  set b : ℚ := (10 : ℚ) ^ k with hbdef
  have hbpos : 0 < b := zpow_pos (by norm_num) k
  have hbl : b ≤ t := Int.zpow_log_le_self (by norm_num) ht
  have hk1 : (10 : ℚ) ^ (k + 1) = b * 10 := zpow_add_one₀ (by norm_num) k
  have hbu : t < b * 10 := by
    rw [← hk1]
    exact Int.lt_zpow_succ_log_self (by norm_num) t
  have hunf : getStepSize duration width =
      (if b * 1 ≥ t then b * 1 else if b * 2 ≥ t then b * 2
        else if b * 5 ≥ t then b * 5 else if b * 10 ≥ t then b * 10
        else b * 10) := rfl
  by_cases h1 : b * 1 ≥ t
  · rw [hunf, if_pos h1]
    have hbt : b = t := le_antisymm hbl (by linarith)
    refine ⟨⟨k, Or.inl (by rw [mul_one])⟩, by linarith, ?_, by nlinarith⟩
    intro s _ hts
    rw [mul_one, hbt]
    exact hts
  · rw [hunf, if_neg h1]
    have hbt : b < t := by
      rw [mul_one] at h1
      linarith [lt_of_not_le h1]
    by_cases h2 : b * 2 ≥ t
    · rw [if_pos h2]
      refine ⟨⟨k, Or.inr (Or.inl (mul_comm b 2))⟩, h2, ?_, by nlinarith⟩
      intro s hs hts
      rcases nice_ge_cases t s ht hs hts with h | h | h | h
      · rw [← hkdef, ← hbdef] at h
        rw [h] at hts
        linarith
      · rw [← hkdef, ← hbdef] at h
        rw [h]
        linarith
      · rw [← hkdef, ← hbdef] at h
        rw [h]
        linarith
      · rw [← hkdef, hk1] at h
        linarith
    · rw [if_neg h2]
      have hbt2 : b * 2 < t := lt_of_not_le h2
      by_cases h5 : b * 5 ≥ t
      · rw [if_pos h5]
        refine ⟨⟨k, Or.inr (Or.inr (mul_comm b 5))⟩, h5, ?_, by nlinarith⟩
        intro s hs hts
        rcases nice_ge_cases t s ht hs hts with h | h | h | h
        · rw [← hkdef, ← hbdef] at h
          rw [h] at hts
          linarith
        · rw [← hkdef, ← hbdef] at h
          rw [h] at hts
          linarith
        · rw [← hkdef, ← hbdef] at h
          rw [h]
          linarith
        · rw [← hkdef, hk1] at h
          linarith
      · rw [if_neg h5, if_pos (le_of_lt hbu : t ≤ b * 10)]
        have hbt5 : b * 5 < t := lt_of_not_le h5
        refine ⟨⟨k + 1, Or.inl (by rw [hk1])⟩, le_of_lt hbu, ?_, by nlinarith⟩
        intro s hs hts
        rcases nice_ge_cases t s ht hs hts with h | h | h | h <;>
          rw [← hkdef] at h
        · rw [← hbdef] at h
          rw [h] at hts
          linarith
        · rw [← hbdef] at h
          rw [h] at hts
          linarith
        · rw [← hbdef] at h
          rw [h] at hts
          linarith
        · rw [hk1] at h
          linarith

/-- Witness for C9 at duration 500 and width 1000 (target step 50). -/
theorem getStepSize_least_nice_witness :
    (0 : ℚ) < 500 ∧ (0 : ℚ) < 1000 ∧
    (isNiceStep (getStepSize 500 1000) ∧
      (500 : ℚ) * (100 / 1000) ≤ getStepSize 500 1000 ∧
      (∀ s : ℚ, isNiceStep s → (500 : ℚ) * (100 / 1000) ≤ s →
        getStepSize 500 1000 ≤ s) ∧
      getStepSize 500 1000 < (5 / 2) * ((500 : ℚ) * (100 / 1000))) :=
  ⟨by norm_num, by norm_num,
    getStepSize_least_nice 500 1000 (by norm_num) (by norm_num)⟩
